import Mathlib

/-!
Verification of the core logic of `mega_file_manager.py` (MegaFileManager).

The remote listing returned by `mega.get_files()` is a flat mapping from
node id to node data; we embed it as an association list `Listing` whose
order models the mapping's iteration order.  A node's fields used by the
code are `p` (parent id), `t` (0 = file, 1 = folder) and the optional
display name `a.n` (absent or undecodable attributes are `none`).

The remote mutation primitives (`destroy`, `rename`) can raise per call;
we model them by a `Remote` oracle of success predicates, and record every
issued call in the outcome structures so that dry-run/live differences are
observable.  Python's unbounded recursion in `get_all_files_recursive` is
embedded with an explicit recursion-depth budget `fuel`: the traversal
returns `none` when the budget is exhausted, which happens on no input
whose parent relation is acyclic (proved below) and on every fuel for a
cyclic one.
-/

/-- Node data as used by the Python code: `p` is the parent id, `t` the
type tag (0 = file, 1 = folder), `name` the optional display name
(`file_data['a']['n']` when present and decodable). -/
structure Node where
  p : String
  t : Nat
  name : Option String
deriving DecidableEq, Repr

/-- The flat node listing `mega.get_files()`: id/node pairs in iteration
order. -/
abbrev Listing := List (String × Node)

/-- One element of the list built by `get_all_files_recursive`:
`{'id': file_id, 'name': ..., 'data': file_data}`. -/
structure FileRecord where
  id : String
  name : String
  data : Node
deriving DecidableEq, Repr

/-- The display name recorded for a node:
`file_data['a']['n'] if 'a' in file_data and 'n' in file_data['a'] else 'unknown'`. -/
def nodeName (nd : Node) : String := nd.name.getD "unknown"

/-- The `FileRecord` built from a listing entry. -/
def recOf (e : String × Node) : FileRecord := ⟨e.1, nodeName e.2, e.2⟩

/-- Python's `str.lower()` (restricted to the ASCII case mapping of
`Char.toLower`, which is what the file names in the claims use). -/
def lowerStr (s : String) : String := ⟨s.data.map Char.toLower⟩

/-- Python's `str.endswith(post)`. -/
def strEndsWith (s post : String) : Bool := post.data.isSuffixOf s.data

/-- CPython's `pathlib.PurePath.suffix` on a plain file name: with
`i = name.rfind('.')`, the result is `name[i:]` when `0 < i < len(name)-1`
and `""` otherwise.  Computed here from the reversed character list: `ext`
is the run of characters after the last dot (reversed), the guard
`ext.length + 1 < rev.length` says a dot exists and is not the first
character of `name`, and `0 < ext.length` says the dot is not the last. -/
def pathSuffix (name : String) : String :=
  if ((name.data.reverse.takeWhile (fun c => !(c == '.'))).length + 1 < name.data.reverse.length)
      ∧ 0 < (name.data.reverse.takeWhile (fun c => !(c == '.'))).length then
    ⟨'.' :: (name.data.reverse.takeWhile (fun c => !(c == '.'))).reverse⟩
  else ""

/-- The character for a decimal digit value. -/
def digitChar (n : Nat) : Char := Char.ofNat (48 + n)

/-- Decimal digits, most significant first, with a structural fuel
argument so that the kernel can evaluate it (`fuel > n` suffices). -/
def natDigitsAux : Nat → Nat → List Char
  | 0, _ => []
  | fuel + 1, n =>
    if n < 10 then [digitChar n]
    else natDigitsAux fuel (n / 10) ++ [digitChar (n % 10)]

/-- Decimal digits of a natural number, most significant first. -/
def natDigits (n : Nat) : List Char := natDigitsAux (n + 1) n

/-- Value of a decimal digit string (inverse of `natDigits`, used to prove
injectivity of the zero-padded index). -/
def digitsVal (l : List Char) : Nat := l.foldl (fun acc c => acc * 10 + (c.toNat - 48)) 0

/-- Python's `f"{n:03d}"` for a natural number: the decimal digits,
left-padded with `'0'` to width 3. -/
def pad3 (n : Nat) : String := ⟨List.replicate (3 - (natDigits n).length) '0' ++ natDigits n⟩

/-- The planned new name `f"{custom_name}_{idx:03d}{extension}"` where
`extension = Path(original_name).suffix`. -/
def newName (custom_name : String) (idx : Nat) (original_name : String) : String :=
  custom_name ++ "_" ++ pad3 idx ++ pathSuffix original_name

/-- Python's substring test `needle in haystack` on character lists. -/
def containsSub (haystack needle : List Char) : Bool :=
  match haystack with
  | [] => needle.isEmpty
  | _ :: t => needle.isPrefixOf haystack || containsSub t needle

/-! ## Tree walker (`get_all_files_recursive`) -/

/-- One level of `traverse(parent_id)`: scan the listing entries in order;
a child file is collected, a child folder is descended into via `rec`
(the traversal at the remaining recursion budget), other children are
skipped.  `none` propagates budget exhaustion from `rec`. -/
def scanList (rec : String → Option (List FileRecord)) (parentId : String) :
    List (String × Node) → Option (List FileRecord)
  | [] => some []
  | (fid, nd) :: rest =>
    if nd.p = parentId then
      if nd.t = 0 then
        match scanList rec parentId rest with
        | none => none
        | some l => some (⟨fid, nodeName nd, nd⟩ :: l)
      else if nd.t = 1 then
        match rec fid with
        | none => none
        | some sub =>
          match scanList rec parentId rest with
          | none => none
          | some l => some (sub ++ l)
      else scanList rec parentId rest
    else scanList rec parentId rest

/-- The recursive `traverse` of `get_all_files_recursive`, with an explicit
recursion-depth budget: each descent into a folder consumes one unit of
`fuel`, and `none` means the budget ran out (the Python original would
still be recursing). -/
def traverseAux (files : Listing) : Nat → String → Option (List FileRecord)
  | 0, _ => none
  | fuel + 1, parentId => scanList (traverseAux files fuel) parentId files

/-- `get_all_files_recursive(folder_id)` over the listing `files`, with
recursion budget `fuel`. -/
def get_all_files_recursive (files : Listing) (folder_id : String) (fuel : Nat) :
    Option (List FileRecord) :=
  traverseAux files fuel folder_id

/-! ## Spec-side relations for the walker -/

/-- `childRel files a b`: the listing has a node `b` whose parent id is
`a` (of any type). -/
def childRel (files : Listing) (a b : String) : Prop :=
  ∃ nd, (b, nd) ∈ files ∧ nd.p = a

/-- The parent relation of the listing has no cycle: no id is reachable
from itself by one or more parent-child steps. -/
def Acyclic (files : Listing) : Prop :=
  ∀ id, ¬ Relation.TransGen (childRel files) id id

/-- `Desc files root x`: `x` is the root or is reachable from `root` by
descending through type-1 (folder) children — exactly the parent ids the
traversal scans. -/
inductive Desc (files : Listing) (root : String) : String → Prop
  | refl : Desc files root root
  | step {a b : String} {nd : Node} :
      Desc files root a → (b, nd) ∈ files → nd.p = a → nd.t = 1 → Desc files root b

/-- `PDesc files root x`: `x` is the root or its parent chain reaches
`root` through nodes of any type (the literal reading of "parent-id chain
reaches the root"). -/
inductive PDesc (files : Listing) (root : String) : String → Prop
  | refl : PDesc files root root
  | step {a b : String} {nd : Node} :
      PDesc files root a → (b, nd) ∈ files → nd.p = a → PDesc files root b

/-- A descending chain of folder children starting below `a`. -/
def IsChainF (files : Listing) : String → List String → Prop
  | _, [] => True
  | a, b :: l => (∃ nd, (b, nd) ∈ files ∧ nd.p = a ∧ nd.t = 1) ∧ IsChainF files b l

/-- The listing entries that are folder children of `parent`. -/
def folderChildren (files : Listing) (parent : String) : List (String × Node) :=
  files.filter (fun c => c.2.t == 1 && c.2.p == parent)

/-- The specification predicate for the collection claim: a listing entry
is collected exactly when it is a type-0 (file) node whose parent id is
reachable from `root` through folder children. -/
def specPred (files : Listing) (root : String) (e : String × Node) : Prop :=
  e.2.t = 0 ∧ Desc files root e.2.p

/-! ## Inventory analyzer (`analyze_folder`) -/

/-- The statistics dictionary computed by `analyze_folder`; the
`file_types` histogram is modelled as its counting function. -/
structure Stats where
  total_files : Nat
  pdf_files : Nat
  other_files : Nat
  file_types : String → Nat

/-- `analyze_folder` over an already-collected file list: for each file,
`ext = Path(name).suffix.lower()`; `pdf_files` counts `ext == '.pdf'`,
`other_files` the rest, and `file_types[ext]` every file with that
(lowered) suffix. -/
def analyze_folder (all_files : List FileRecord) : Stats :=
  { total_files := all_files.length
    pdf_files := all_files.countP (fun f => lowerStr (pathSuffix f.name) == ".pdf")
    other_files := all_files.countP (fun f => !(lowerStr (pathSuffix f.name) == ".pdf"))
    file_types := fun ext => all_files.countP (fun f => lowerStr (pathSuffix f.name) == ext) }

/-! ## Mutation executors (`delete_pdfs`, `rename_files`) -/

/-- Success oracle for the remote mutation primitives: `destroyOk id` and
`renameOk id new_name` say whether the corresponding call returns instead
of raising. -/
structure Remote where
  destroyOk : String → Bool
  renameOk : String → String → Bool

/-- Result of `delete_pdfs`: the matched files (the planned delete set, in
listing-collection order), the returned count, and the `destroy` calls
issued (in order). -/
structure DeleteOutcome where
  planned : List FileRecord
  deleted_count : Nat
  calls : List String
deriving Repr

/-- The per-file loop of `delete_pdfs`: in live mode `destroy` is called
on every item; a failing call is caught and the loop continues, counting
only successes.  In dry-run mode no call is issued and every item counts. -/
def deleteLoop (remote : Remote) (dry_run : Bool) : List FileRecord → Nat × List String
  | [] => (0, [])
  | f :: rest =>
    let r := deleteLoop remote dry_run rest
    if dry_run then (r.1 + 1, r.2)
    else if remote.destroyOk f.id then (r.1 + 1, f.id :: r.2)
    else (r.1, f.id :: r.2)

/-- `delete_pdfs` over an already-collected file list:
`pdf_files = [f for f in all_files if f['name'].lower().endswith('.pdf')]`,
then the per-file delete loop. -/
def delete_pdfs (remote : Remote) (all_files : List FileRecord) (dry_run : Bool) :
    DeleteOutcome :=
  let pdf_files := all_files.filter (fun f => strEndsWith (lowerStr f.name) ".pdf")
  let r := deleteLoop remote dry_run pdf_files
  { planned := pdf_files, deleted_count := r.1, calls := r.2 }

/-- One entry of the rename backup:
`{'file_id': ..., 'original_name': ..., 'new_name': ...}`. -/
structure RenameEntry where
  file_id : String
  original_name : String
  new_name : String
deriving DecidableEq, Repr

/-- Result of `rename_files`: the backup entries (one per planned rename,
in plan order), the returned count, the `rename` calls issued, and whether
the backup file is written. -/
structure RenameOutcome where
  backup_files : List RenameEntry
  renamed_count : Nat
  calls : List (String × String)
  backup_written : Bool
deriving Repr

/-- The per-file loop of `rename_files`, starting at 1-based index `idx`:
the backup entry is appended before the remote call, so it is present even
when the call fails; in live mode `rename` is called on every item and a
failure is caught without stopping the loop; in dry-run mode no call is
issued and every item counts. -/
def renameLoop (remote : Remote) (dry_run : Bool) (custom_name : String) :
    Nat → List FileRecord → List RenameEntry × Nat × List (String × String)
  | _, [] => ([], 0, [])
  | idx, f :: rest =>
    let nn := newName custom_name idx f.name
    let r := renameLoop remote dry_run custom_name (idx + 1) rest
    if dry_run then (⟨f.id, f.name, nn⟩ :: r.1, r.2.1 + 1, r.2.2)
    else if remote.renameOk f.id nn then (⟨f.id, f.name, nn⟩ :: r.1, r.2.1 + 1, (f.id, nn) :: r.2.2)
    else (⟨f.id, f.name, nn⟩ :: r.1, r.2.1, (f.id, nn) :: r.2.2)

/-- `rename_files` over an already-collected file list: exclude names
matching `.pdf` (case-insensitively), stable-sort by original name, run
the per-file loop from index 1, and write the backup exactly when the pass
is live and at least one rename succeeded. -/
def rename_files (remote : Remote) (all_files : List FileRecord) (custom_name : String)
    (dry_run : Bool) : RenameOutcome :=
  let files_to_rename := all_files.filter (fun f => !(strEndsWith (lowerStr f.name) ".pdf"))
  let sorted := files_to_rename.mergeSort (fun a b => a.name ≤ b.name)
  let r := renameLoop remote dry_run custom_name 1 sorted
  { backup_files := r.1
    renamed_count := r.2.1
    calls := r.2.2
    backup_written := !dry_run && decide (0 < r.2.1) }

/-- The pure rename plan from 1-based index `idx`: what `renameLoop`
appends to the backup, independent of mode and oracle. -/
def planOf (custom_name : String) : Nat → List FileRecord → List RenameEntry
  | _, [] => []
  | idx, f :: rest => ⟨f.id, f.name, newName custom_name idx f.name⟩ :: planOf custom_name (idx + 1) rest

/-! ## Folder locator (`find_folder`) -/

/-- The exact-match test of `find_folder`'s first pass: the node has a
decodable name equal to the query and is a folder. -/
def exactMatch (folder_path : String) (e : String × Node) : Bool :=
  match e.2.name with
  | some n => n == folder_path && e.2.t == 1
  | none => false

/-- The substring test of `find_folder`'s second pass: the node has a
decodable name containing the query and is a folder. -/
def subMatch (folder_path : String) (e : String × Node) : Bool :=
  match e.2.name with
  | some n => containsSub n.data folder_path.data && e.2.t == 1
  | none => false

/-- The second pass of `find_folder`: each substring candidate is offered
to the interactive confirmation in listing order; the first confirmed one
is returned, a declined one is skipped. -/
def findSubstr (folder_path : String) (confirm : String × Node → Bool) :
    List (String × Node) → Option (String × Node)
  | [] => none
  | e :: rest =>
    if subMatch folder_path e then
      if confirm e then some e else findSubstr folder_path confirm rest
    else findSubstr folder_path confirm rest

/-- `find_folder`: first pass returns the first exact folder match without
confirmation; only when it finds nothing does the substring pass run. -/
def find_folder (files : Listing) (folder_path : String)
    (confirm : String × Node → Bool) : Option (String × Node) :=
  match files.find? (exactMatch folder_path) with
  | some e => some e
  | none => findSubstr folder_path confirm files

/-! ## Concrete sample data used by witnesses and counterexamples -/

/-- A remote on which every mutation call succeeds. -/
def remoteAll : Remote := ⟨fun _ => true, fun _ _ => true⟩

/-- A remote on which every mutation call raises. -/
def remoteFail : Remote := ⟨fun _ => false, fun _ _ => false⟩

/-- Three collected files, two renameable and one PDF (the spec's §8
scenario). -/
def sampleFiles : List FileRecord :=
  [⟨"i1", "b.txt", ⟨"R", 0, some "b.txt"⟩⟩,
   ⟨"i2", "a.txt", ⟨"R", 0, some "a.txt"⟩⟩,
   ⟨"i3", "x.pdf", ⟨"R", 0, some "x.pdf"⟩⟩]

/-- A file whose entire name is the extension. -/
def dotPdfFile : FileRecord := ⟨"i0", ".PDF", ⟨"R", 0, some ".PDF"⟩⟩

/-- A small well-formed listing: root folder `R`, subfolder `D1`, files in
both. -/
def walkListing : Listing :=
  [("R", ⟨"RP", 1, some "root"⟩),
   ("D1", ⟨"R", 1, some "sub"⟩),
   ("F1", ⟨"R", 0, some "b.txt"⟩),
   ("F2", ⟨"D1", 0, some "a.txt"⟩)]

/-- A listing in which a type-0 (file) node `B` has its parent chain
through another file node `A`: `B`'s parent chain reaches the root, but
the traversal never descends into the file `A`. -/
def fileChildListing : Listing :=
  [("R", ⟨"RP", 1, some "root"⟩),
   ("A", ⟨"R", 0, some "a"⟩),
   ("B", ⟨"A", 0, some "b"⟩)]

/-- A listing with a parent cycle: folder `A` is its own parent. -/
def cycListing : Listing := [("A", ⟨"A", 1, some "loop"⟩)]

/-- A listing with one exact folder-name match and one substring match. -/
def findListing : Listing :=
  [("S", ⟨"R", 1, some "docs-old"⟩),
   ("R", ⟨"RP", 1, some "docs"⟩)]

/-! ## Decimal formatting lemmas: `pad3` is injective -/

theorem digitChar_toNat {d : Nat} (h : d < 10) : (digitChar d).toNat = 48 + d := by
  interval_cases d <;> decide

theorem digitChar_isDigit {d : Nat} (h : d < 10) : (digitChar d).isDigit = true := by
  interval_cases d <;> decide

theorem digitsVal_append_single (l : List Char) (c : Char) :
    digitsVal (l ++ [c]) = digitsVal l * 10 + (c.toNat - 48) := by
  simp [digitsVal, List.foldl_append]

theorem digitsVal_natDigitsAux :
    ∀ (fuel n : Nat), n < fuel → digitsVal (natDigitsAux fuel n) = n := by
  intro fuel
  induction fuel with
  | zero => intro n h; omega
  | succ fuel ih =>
    intro n h
    rw [natDigitsAux]
    split
    · next h10 => simp [digitsVal, digitChar_toNat h10]
    · next h10 =>
      have hdiv : n / 10 < n := Nat.div_lt_self (by omega) (by omega)
      rw [digitsVal_append_single, ih (n / 10) (by omega),
        digitChar_toNat (Nat.mod_lt _ (by omega))]
      omega

theorem digitsVal_natDigits (n : Nat) : digitsVal (natDigits n) = n :=
  digitsVal_natDigitsAux (n + 1) n (by omega)

theorem natDigits_isDigit (n : Nat) : ∀ c ∈ natDigits n, c.isDigit = true := by
  show ∀ c ∈ natDigitsAux (n + 1) n, c.isDigit = true
  have main : ∀ (fuel m : Nat), ∀ c ∈ natDigitsAux fuel m, c.isDigit = true := by
    intro fuel
    induction fuel with
    | zero => intro m c hc; simp [natDigitsAux] at hc
    | succ fuel ih =>
      intro m c hc
      rw [natDigitsAux] at hc
      split at hc
      · next h =>
        simp only [List.mem_singleton] at hc
        subst hc
        exact digitChar_isDigit h
      · next h =>
        rw [List.mem_append, List.mem_singleton] at hc
        rcases hc with hc | hc
        · exact ih (m / 10) c hc
        · subst hc
          exact digitChar_isDigit (Nat.mod_lt _ (by omega))
  exact main (n + 1) n

theorem digitsVal_replicate_zero (k : Nat) (l : List Char) :
    digitsVal (List.replicate k '0' ++ l) = digitsVal l := by
  induction k with
  | zero => simp
  | succ k ih =>
    rw [List.replicate_succ, List.cons_append]
    show List.foldl _ (0 * 10 + ('0'.toNat - 48)) _ = _
    simpa [digitsVal] using ih

theorem digitsVal_pad3 (n : Nat) : digitsVal (pad3 n).data = n := by
  show digitsVal (List.replicate _ '0' ++ natDigits n) = n
  rw [digitsVal_replicate_zero, digitsVal_natDigits]

theorem pad3_isDigit (n : Nat) : ∀ c ∈ (pad3 n).data, c.isDigit = true := by
  intro c hc
  rcases List.mem_append.mp hc with hc | hc
  · rw [List.eq_of_mem_replicate hc]; decide
  · exact natDigits_isDigit n c hc

theorem pad3_inj {a b : Nat} (h : pad3 a = pad3 b) : a = b := by
  have := congrArg (fun s => digitsVal s.data) h
  simpa [digitsVal_pad3] using this

/-- The planned extension is empty or begins with a dot. -/
theorem pathSuffix_head (name : String) :
    (pathSuffix name).data = [] ∨ ∃ l, (pathSuffix name).data = '.' :: l := by
  unfold pathSuffix
  split
  · exact Or.inr ⟨_, rfl⟩
  · exact Or.inl rfl

theorem takeWhile_append_all {p : Char → Bool} {xs ys : List Char}
    (hx : ∀ c ∈ xs, p c = true)
    (hy : ys = [] ∨ ∃ c l, ys = c :: l ∧ p c = false) :
    (xs ++ ys).takeWhile p = xs := by
  induction xs with
  | nil =>
    rcases hy with rfl | ⟨c, l, rfl, hc⟩
    · rfl
    · simp [List.takeWhile_cons, hc]
  | cons x xs ih =>
    have hx' := hx x (List.mem_cons_self _ _)
    rw [List.cons_append, List.takeWhile_cons, if_pos hx',
      ih (fun c hc => hx c (List.mem_cons_of_mem _ hc))]

/-- Two planned new names with the same custom name agree only if their
1-based indices agree: the zero-padded index is the maximal digit run
after the underscore, and it determines the index. -/
theorem newName_inj {custom : String} {i j : Nat} {n1 n2 : String}
    (h : newName custom i n1 = newName custom j n2) : i = j := by
  have hd := congrArg String.data h
  simp only [newName, String.data_append, List.append_assoc] at hd
  have h2 : (pad3 i).data ++ (pathSuffix n1).data
      = (pad3 j).data ++ (pathSuffix n2).data := by
    have := List.append_cancel_left hd
    have := List.append_cancel_left this
    exact this
  have tw : ∀ (k : Nat) (nm : String),
      ((pad3 k).data ++ (pathSuffix nm).data).takeWhile Char.isDigit = (pad3 k).data := by
    intro k nm
    refine takeWhile_append_all (pad3_isDigit k) ?_
    rcases pathSuffix_head nm with hnil | ⟨l, hl⟩
    · exact Or.inl hnil
    · exact Or.inr ⟨'.', l, hl, by decide⟩
  have hp : (pad3 i).data = (pad3 j).data := by
    rw [← tw i n1, ← tw j n2, h2]
  have hv := congrArg digitsVal hp
  rwa [digitsVal_pad3, digitsVal_pad3] at hv

/-! ## Per-item loop lemmas -/

theorem countP_add_countP_not {α : Type} (l : List α) (p : α → Bool) :
    l.countP p + l.countP (fun a => !(p a)) = l.length := by
  induction l with
  | nil => simp
  | cons a l ih =>
    by_cases h : p a = true <;> simp [List.countP_cons, h] <;> omega

theorem renameLoop_backup (remote : Remote) (dry : Bool) (custom : String) :
    ∀ (idx : Nat) (fs : List FileRecord),
      (renameLoop remote dry custom idx fs).1 = planOf custom idx fs := by
  intro idx fs
  induction fs generalizing idx with
  | nil => rfl
  | cons f rest ih =>
    simp only [renameLoop, planOf]
    split <;> [skip; split] <;> simp [ih]

theorem renameLoop_count_dry (remote : Remote) (custom : String) :
    ∀ (idx : Nat) (fs : List FileRecord),
      (renameLoop remote true custom idx fs).2.1 = fs.length := by
  intro idx fs
  induction fs generalizing idx with
  | nil => rfl
  | cons f rest ih => simp [renameLoop, ih]

theorem renameLoop_calls_dry (remote : Remote) (custom : String) :
    ∀ (idx : Nat) (fs : List FileRecord),
      (renameLoop remote true custom idx fs).2.2 = [] := by
  intro idx fs
  induction fs generalizing idx with
  | nil => rfl
  | cons f rest ih => simp [renameLoop, ih]

theorem renameLoop_calls_live (remote : Remote) (custom : String) :
    ∀ (idx : Nat) (fs : List FileRecord),
      (renameLoop remote false custom idx fs).2.2
        = (planOf custom idx fs).map (fun e => (e.file_id, e.new_name)) := by
  intro idx fs
  induction fs generalizing idx with
  | nil => rfl
  | cons f rest ih =>
    by_cases h : remote.renameOk f.id (newName custom idx f.name) = true <;>
      simp [renameLoop, planOf, h, ih (idx + 1)]

theorem renameLoop_count_live (remote : Remote) (custom : String) :
    ∀ (idx : Nat) (fs : List FileRecord),
      (renameLoop remote false custom idx fs).2.1
        = (planOf custom idx fs).countP (fun e => remote.renameOk e.file_id e.new_name) := by
  intro idx fs
  induction fs generalizing idx with
  | nil => rfl
  | cons f rest ih =>
    by_cases h : remote.renameOk f.id (newName custom idx f.name) = true <;>
      simp [renameLoop, planOf, List.countP_cons, h, ih (idx + 1)]

theorem deleteLoop_count_dry (remote : Remote) :
    ∀ fs : List FileRecord, (deleteLoop remote true fs).1 = fs.length := by
  intro fs
  induction fs with
  | nil => rfl
  | cons f rest ih => simp [deleteLoop, ih]

theorem deleteLoop_calls_dry (remote : Remote) :
    ∀ fs : List FileRecord, (deleteLoop remote true fs).2 = [] := by
  intro fs
  induction fs with
  | nil => rfl
  | cons f rest ih => simp [deleteLoop, ih]

theorem deleteLoop_calls_live (remote : Remote) :
    ∀ fs : List FileRecord, (deleteLoop remote false fs).2 = fs.map (fun f => f.id) := by
  intro fs
  induction fs with
  | nil => rfl
  | cons f rest ih =>
    by_cases h : remote.destroyOk f.id = true <;> simp [deleteLoop, h, ih]

theorem deleteLoop_count_live (remote : Remote) :
    ∀ fs : List FileRecord,
      (deleteLoop remote false fs).1 = fs.countP (fun f => remote.destroyOk f.id) := by
  intro fs
  induction fs with
  | nil => rfl
  | cons f rest ih =>
    by_cases h : remote.destroyOk f.id = true <;> simp [deleteLoop, List.countP_cons, h, ih]

/-! ## Rename-plan lemmas -/

theorem planOf_length (custom : String) :
    ∀ (idx : Nat) (fs : List FileRecord), (planOf custom idx fs).length = fs.length := by
  intro idx fs
  induction fs generalizing idx with
  | nil => rfl
  | cons f rest ih => simp [planOf, ih]

theorem planOf_getElem? (custom : String) :
    ∀ (idx : Nat) (fs : List FileRecord) (k : Nat),
      (planOf custom idx fs)[k]?
        = (fs[k]?).map (fun f => (⟨f.id, f.name, newName custom (idx + k) f.name⟩ : RenameEntry)) := by
  intro idx fs
  induction fs generalizing idx with
  | nil => intro k; rfl
  | cons f rest ih =>
    intro k
    cases k with
    | zero => simp [planOf]
    | succ k =>
      simp only [planOf, List.getElem?_cons_succ, ih (idx + 1) k]
      have : idx + 1 + k = idx + (k + 1) := by omega
      rw [this]

theorem planOf_map_orig (custom : String) :
    ∀ (idx : Nat) (fs : List FileRecord),
      (planOf custom idx fs).map (fun e => e.original_name) = fs.map (fun f => f.name) := by
  intro idx fs
  induction fs generalizing idx with
  | nil => rfl
  | cons f rest ih => simp [planOf, ih]

theorem planOf_map_pair (custom : String) :
    ∀ (idx : Nat) (fs : List FileRecord),
      (planOf custom idx fs).map (fun e => (e.file_id, e.original_name))
        = fs.map (fun f => (f.id, f.name)) := by
  intro idx fs
  induction fs generalizing idx with
  | nil => rfl
  | cons f rest ih => simp [planOf, ih]

theorem planOf_filter_name (custom : String) (s : String) :
    ∀ (idx : Nat) (fs : List FileRecord),
      ((planOf custom idx fs).filter (fun e => e.original_name == s)).map (fun e => e.file_id)
        = (fs.filter (fun f => f.name == s)).map (fun f => f.id) := by
  intro idx fs
  induction fs generalizing idx with
  | nil => rfl
  | cons f rest ih =>
    simp only [planOf, List.filter_cons]
    by_cases h : f.name == s <;> simp [h, ih]

/-! ## Claims about the mutation executors -/

/-- C3: for every input file set, custom name (and hence folder id), the
dry-run pass computes exactly the same planned delete set and rename plan
(same entries, same order, same new names) as the live pass on the same
input, issues zero calls to the remote delete and rename primitives, and
writes no backup artifact. -/
theorem claim_C3 (remote : Remote) (all_files : List FileRecord) (custom_name : String) :
    (delete_pdfs remote all_files true).planned = (delete_pdfs remote all_files false).planned
  ∧ (delete_pdfs remote all_files true).calls = []
  ∧ (rename_files remote all_files custom_name true).backup_files
      = (rename_files remote all_files custom_name false).backup_files
  ∧ (rename_files remote all_files custom_name true).calls = []
  ∧ (rename_files remote all_files custom_name true).backup_written = false := by
  refine ⟨rfl, ?_, ?_, ?_, ?_⟩
  · simp [delete_pdfs, deleteLoop_calls_dry]
  · simp [rename_files, renameLoop_backup]
  · simp [rename_files, renameLoop_calls_dry]
  · simp [rename_files]

/-- C4: the deletion set and the rename plan are disjoint — every planned
deletion matches the target extension (case-insensitive suffix match),
no rename-plan entry matches it, and the two sets partition the collected
files, so no file is counted in both the delete count and the rename count
of one run. -/
theorem claim_C4 (remote : Remote) (all_files : List FileRecord) (custom_name : String)
    (dry_run : Bool) :
    (∀ f ∈ (delete_pdfs remote all_files dry_run).planned,
        strEndsWith (lowerStr f.name) ".pdf" = true)
  ∧ (∀ e ∈ (rename_files remote all_files custom_name dry_run).backup_files,
        ¬ strEndsWith (lowerStr e.original_name) ".pdf" = true)
  ∧ (delete_pdfs remote all_files dry_run).planned.length
      + (rename_files remote all_files custom_name dry_run).backup_files.length
      = all_files.length := by
  refine ⟨?_, ?_, ?_⟩
  · intro f hf
    simp only [delete_pdfs] at hf
    exact (List.mem_filter.mp hf).2
  · intro e he
    simp only [rename_files, renameLoop_backup] at he
    have h1 : e.original_name
        ∈ (planOf custom_name 1
            ((all_files.filter (fun f => !(strEndsWith (lowerStr f.name) ".pdf"))).mergeSort
              (fun a b => a.name ≤ b.name))).map (fun e => e.original_name) :=
      List.mem_map_of_mem _ he
    rw [planOf_map_orig] at h1
    obtain ⟨f, hf, hfe⟩ := List.mem_map.mp h1
    rw [List.mem_mergeSort] at hf
    have := List.of_mem_filter hf
    rw [← hfe]
    simpa using this
  · have hp := countP_add_countP_not all_files (fun f => strEndsWith (lowerStr f.name) ".pdf")
    simp only [List.countP_eq_length_filter] at hp
    simp only [delete_pdfs, rename_files, renameLoop_backup, planOf_length,
      List.length_mergeSort]
    exact hp

/-- C5: in a live batch, a failure of the remote primitive on one item
does not prevent any later item from being attempted (every matched item
is called, in order), and the returned count equals the number of matched
items minus the number of failed items; in dry-run mode every matched item
counts as processed. -/
theorem claim_C5 (remote : Remote) (all_files : List FileRecord) (custom_name : String) :
    (delete_pdfs remote all_files false).calls
      = (delete_pdfs remote all_files false).planned.map (fun f => f.id)
  ∧ (delete_pdfs remote all_files false).deleted_count
      = (delete_pdfs remote all_files false).planned.length
        - (delete_pdfs remote all_files false).planned.countP
            (fun f => !(remote.destroyOk f.id))
  ∧ (delete_pdfs remote all_files true).deleted_count
      = (delete_pdfs remote all_files true).planned.length
  ∧ (rename_files remote all_files custom_name false).calls
      = (rename_files remote all_files custom_name false).backup_files.map
          (fun e => (e.file_id, e.new_name))
  ∧ (rename_files remote all_files custom_name false).renamed_count
      = (rename_files remote all_files custom_name false).backup_files.length
        - (rename_files remote all_files custom_name false).backup_files.countP
            (fun e => !(remote.renameOk e.file_id e.new_name))
  ∧ (rename_files remote all_files custom_name true).renamed_count
      = (rename_files remote all_files custom_name true).backup_files.length := by
  refine ⟨?_, ?_, ?_, ?_, ?_, ?_⟩
  · simp [delete_pdfs, deleteLoop_calls_live]
  · have h1 := deleteLoop_count_live remote
      (all_files.filter (fun f => strEndsWith (lowerStr f.name) ".pdf"))
    have h2 := countP_add_countP_not
      (all_files.filter (fun f => strEndsWith (lowerStr f.name) ".pdf"))
      (fun f => remote.destroyOk f.id)
    simp only [delete_pdfs]
    omega
  · simp [delete_pdfs, deleteLoop_count_dry]
  · simp [rename_files, renameLoop_calls_live, renameLoop_backup]
  · have h1 := renameLoop_count_live remote custom_name 1
      ((all_files.filter (fun f => !(strEndsWith (lowerStr f.name) ".pdf"))).mergeSort
        (fun a b => a.name ≤ b.name))
    have h2 := countP_add_countP_not
      (planOf custom_name 1
        ((all_files.filter (fun f => !(strEndsWith (lowerStr f.name) ".pdf"))).mergeSort
          (fun a b => a.name ≤ b.name)))
      (fun e => remote.renameOk e.file_id e.new_name)
    simp only [rename_files, renameLoop_backup]
    omega
  · simp [rename_files, renameLoop_count_dry, renameLoop_backup, planOf_length]

/-- C6: a backup artifact with exactly one entry per planned rename is
built in both modes and does not depend on which remote calls later fail;
it is persisted if and only if the pass is live and at least one rename
succeeded. -/
theorem claim_C6 (remote : Remote) (all_files : List FileRecord) (custom_name : String)
    (dry_run : Bool) :
    (rename_files remote all_files custom_name dry_run).backup_files.length
      = (all_files.filter (fun f => !(strEndsWith (lowerStr f.name) ".pdf"))).length
  ∧ (∀ (remote' : Remote) (dry' : Bool),
      (rename_files remote' all_files custom_name dry').backup_files
        = (rename_files remote all_files custom_name dry_run).backup_files)
  ∧ ((rename_files remote all_files custom_name dry_run).backup_written = true
      ↔ dry_run = false
        ∧ 0 < (rename_files remote all_files custom_name dry_run).renamed_count) := by
  refine ⟨?_, ?_, ?_⟩
  · simp [rename_files, renameLoop_backup, planOf_length]
  · intro remote' dry'
    simp [rename_files, renameLoop_backup]
  · cases dry_run <;> simp [rename_files]

/-- C9: the analyzer counts a file as a target-extension file iff the
lowercased final dot-suffix of its name equals ".pdf", while the deleter
selects iff the lowercased whole name ends with ".pdf"; a file named
".PDF" (whose dot-suffix is empty) is therefore counted under
`other_files` with the empty-string extension yet included in the deletion
set and excluded from the rename plan, so the reported target-extension
count can be strictly smaller than the deletion set. -/
theorem claim_C9 :
    (∀ (fs : List FileRecord) (remote : Remote) (dry : Bool),
        (delete_pdfs remote fs dry).planned.length
          = fs.countP (fun f => strEndsWith (lowerStr f.name) ".pdf"))
  ∧ (∀ fs : List FileRecord,
        (analyze_folder fs).pdf_files
          = fs.countP (fun f => lowerStr (pathSuffix f.name) == ".pdf"))
  ∧ (analyze_folder [dotPdfFile]).pdf_files = 0
  ∧ (analyze_folder [dotPdfFile]).other_files = 1
  ∧ (analyze_folder [dotPdfFile]).file_types "" = 1
  ∧ (delete_pdfs remoteAll [dotPdfFile] true).planned = [dotPdfFile]
  ∧ (rename_files remoteAll [dotPdfFile] "doc" true).backup_files = []
  ∧ (analyze_folder [dotPdfFile]).pdf_files
      < (delete_pdfs remoteAll [dotPdfFile] true).planned.length := by
  refine ⟨?_, ?_, ?_, ?_, ?_, ?_, ?_, ?_⟩
  · intro fs remote dry
    simp [delete_pdfs, List.countP_eq_length_filter]
  · intro fs
    rfl
  · rfl
  · rfl
  · rfl
  · rfl
  · simp only [rename_files, renameLoop_backup]
    have h : List.filter (fun f => !(strEndsWith (lowerStr f.name) ".pdf")) [dotPdfFile]
        = [] := by decide
    rw [h, List.mergeSort_nil]
    rfl
  · decide

/-- C10: only the final dot-suffix of the original name is carried into
the planned new name: "a.tar.gz" is planned as `custom_name_001.gz` (the
".tar" part is dropped), and ".txt" has an empty suffix, so its planned
new name is `custom_name_001` with no extension at all. -/
theorem claim_C10 (custom_name : String) (id1 id2 : String) (nd1 nd2 : Node) :
    pathSuffix "a.tar.gz" = ".gz"
  ∧ pathSuffix ".txt" = ""
  ∧ (rename_files remoteAll [⟨id1, "a.tar.gz", nd1⟩] custom_name false).backup_files
      = [⟨id1, "a.tar.gz", custom_name ++ "_001.gz"⟩]
  ∧ (rename_files remoteAll [⟨id2, ".txt", nd2⟩] custom_name false).backup_files
      = [⟨id2, ".txt", custom_name ++ "_001"⟩] := by
  refine ⟨rfl, rfl, ?_, ?_⟩
  · simp only [rename_files, renameLoop_backup]
    have h1 : strEndsWith (lowerStr "a.tar.gz") ".pdf" = false := by decide
    simp only [List.filter, h1, Bool.not_false, List.mergeSort_singleton, planOf]
    have h2 : newName custom_name 1 "a.tar.gz" = custom_name ++ "_001.gz" := by
      show custom_name ++ "_" ++ pad3 1 ++ pathSuffix "a.tar.gz" = custom_name ++ "_001.gz"
      have : pad3 1 = "001" := rfl
      rw [this, String.append_assoc, String.append_assoc]
      rfl
    rw [h2]
  · simp only [rename_files, renameLoop_backup]
    have h1 : strEndsWith (lowerStr ".txt") ".pdf" = false := by decide
    simp only [List.filter, h1, Bool.not_false, List.mergeSort_singleton, planOf]
    have h2 : newName custom_name 1 ".txt" = custom_name ++ "_001" := by
      show custom_name ++ "_" ++ pad3 1 ++ pathSuffix ".txt" = custom_name ++ "_001"
      have h3 : pad3 1 = "001" := rfl
      have h4 : pathSuffix ".txt" = "" := rfl
      rw [h3, h4, String.append_assoc, String.append_assoc]
      rfl
    rw [h2]

/-! ## Claim C1: the rename plan -/

theorem nameLeB_trans (a b c : FileRecord) (h1 : decide (a.name ≤ b.name) = true)
    (h2 : decide (b.name ≤ c.name) = true) : decide (a.name ≤ c.name) = true := by
  simp only [decide_eq_true_eq] at *
  exact le_trans h1 h2

theorem nameLeB_total (a b : FileRecord) :
    (decide (a.name ≤ b.name) || decide (b.name ≤ a.name)) = true := by
  rcases le_total a.name b.name with h | h <;> simp [h]

/-- C1: for every collected file list and custom name, the rename plan
assigns `new_name = custom_name ++ "_" ++ pad3 (position+1) ++ original
extension` — indices 1-based, dense, unique and strictly increasing with
plan position; the plan is ordered by a stable lexicographic sort of the
non-excluded files by original name (sorted originals, a permutation of
the filtered input, equal names keeping input order); the extension is
carried verbatim; and all planned new names are pairwise distinct. -/
theorem claim_C1 (remote : Remote) (all_files : List FileRecord) (custom_name : String)
    (dry_run : Bool) :
    ((rename_files remote all_files custom_name dry_run).backup_files.map
        (fun e => e.original_name)).Pairwise (· ≤ ·)
  ∧ (∀ (k : Nat) (e : RenameEntry),
      (rename_files remote all_files custom_name dry_run).backup_files[k]? = some e →
        e.new_name = custom_name ++ "_" ++ pad3 (k + 1) ++ pathSuffix e.original_name)
  ∧ (rename_files remote all_files custom_name dry_run).backup_files.Pairwise
      (fun a b => a.new_name ≠ b.new_name)
  ∧ ((rename_files remote all_files custom_name dry_run).backup_files.map
        (fun e => (e.file_id, e.original_name))).Perm
      ((all_files.filter (fun f => !(strEndsWith (lowerStr f.name) ".pdf"))).map
        (fun f => (f.id, f.name)))
  ∧ (∀ s : String,
      ((rename_files remote all_files custom_name dry_run).backup_files.filter
          (fun e => e.original_name == s)).map (fun e => e.file_id)
        = ((all_files.filter (fun f => !(strEndsWith (lowerStr f.name) ".pdf"))).filter
            (fun f => f.name == s)).map (fun f => f.id)) := by
  have hback : (rename_files remote all_files custom_name dry_run).backup_files
      = planOf custom_name 1
          ((all_files.filter (fun f => !(strEndsWith (lowerStr f.name) ".pdf"))).mergeSort
            (fun a b => a.name ≤ b.name)) := by
    simp [rename_files, renameLoop_backup]
  refine ⟨?_, ?_, ?_, ?_, ?_⟩
  · rw [hback, planOf_map_orig]
    have hs := @List.sorted_mergeSort FileRecord (fun a b => (a.name ≤ b.name : Bool))
      nameLeB_trans nameLeB_total
      (all_files.filter (fun f => !(strEndsWith (lowerStr f.name) ".pdf")))
    rw [List.pairwise_map]
    exact hs.imp (fun h => of_decide_eq_true h)
  · intro k e he
    rw [hback, planOf_getElem?] at he
    rw [Option.map_eq_some'] at he
    obtain ⟨f, _, hfe⟩ := he
    rw [← hfe]
    show newName custom_name (1 + k) f.name = _
    rw [newName, Nat.add_comm 1 k]
  · rw [hback]
    rw [List.pairwise_iff_getElem]
    intro i j hi hj hij
    have hgi := List.getElem?_eq_getElem hi
    have hgj := List.getElem?_eq_getElem hj
    rw [planOf_getElem?, Option.map_eq_some'] at hgi hgj
    obtain ⟨fi, _, hfi⟩ := hgi
    obtain ⟨fj, _, hfj⟩ := hgj
    intro hcontra
    have : newName custom_name (1 + i) fi.name = newName custom_name (1 + j) fj.name := by
      have e1 : (planOf custom_name 1
          ((all_files.filter (fun f => !(strEndsWith (lowerStr f.name) ".pdf"))).mergeSort
            (fun a b => a.name ≤ b.name)))[i].new_name = newName custom_name (1 + i) fi.name := by
        rw [← hfi]
      have e2 : (planOf custom_name 1
          ((all_files.filter (fun f => !(strEndsWith (lowerStr f.name) ".pdf"))).mergeSort
            (fun a b => a.name ≤ b.name)))[j].new_name = newName custom_name (1 + j) fj.name := by
        rw [← hfj]
      rw [← e1, ← e2]
      exact hcontra
    have := newName_inj this
    omega
  · rw [hback, planOf_map_pair]
    exact (List.mergeSort_perm _ _).map _
  · intro s
    rw [hback, planOf_filter_name]
    congr 1
    -- the stable sort preserves the relative order (here: the exact list)
    -- of entries with any fixed original name
    have hmem : ∀ f ∈ (all_files.filter
        (fun f => !(strEndsWith (lowerStr f.name) ".pdf"))).filter (fun f => f.name == s),
        f.name = s := by
      intro f hf
      have := List.of_mem_filter hf
      exact eq_of_beq this
    have hc : ((all_files.filter (fun f => !(strEndsWith (lowerStr f.name) ".pdf"))).filter
        (fun f => f.name == s)).Pairwise
        (fun a b : FileRecord => ((a.name ≤ b.name : Bool) = true)) := by
      apply List.pairwise_of_forall_mem_list
      intro a ha b hb
      rw [hmem a ha, hmem b hb]
      simp
    have hsub := @List.sublist_mergeSort FileRecord (fun a b => (a.name ≤ b.name : Bool)) _
      nameLeB_trans nameLeB_total _ hc
      (List.filter_sublist (all_files.filter (fun f => !(strEndsWith (lowerStr f.name) ".pdf"))))
    have hself : ((all_files.filter (fun f => !(strEndsWith (lowerStr f.name) ".pdf"))).filter
        (fun f => f.name == s)).filter (fun f => f.name == s)
        = (all_files.filter (fun f => !(strEndsWith (lowerStr f.name) ".pdf"))).filter
            (fun f => f.name == s) := by
      apply List.filter_eq_self.mpr
      intro f hf
      have := hmem f hf
      simp [this]
    have h3 := hsub.filter (fun f : FileRecord => f.name == s)
    rw [hself] at h3
    have h4 : (((all_files.filter (fun f => !(strEndsWith (lowerStr f.name) ".pdf"))).mergeSort
        (fun a b => a.name ≤ b.name)).filter (fun f => f.name == s)).length
        = ((all_files.filter (fun f => !(strEndsWith (lowerStr f.name) ".pdf"))).filter
            (fun f => f.name == s)).length := by
      exact ((List.mergeSort_perm _ _).filter _).length_eq
    exact (h3.eq_of_length h4.symm).symm

/-! ## Walker lemmas: unique keys, reachability, chains -/

theorem keyUnique : ∀ {files : Listing}, (files.map Prod.fst).Nodup →
    ∀ {k : String} {v v' : Node}, (k, v) ∈ files → (k, v') ∈ files → v = v' := by
  intro files
  induction files with
  | nil => intro _ k v v' h; cases h
  | cons e rest ih =>
    intro hN k v v' h1 h2
    rw [List.map_cons, List.nodup_cons] at hN
    rcases List.mem_cons.mp h1 with h1 | h1 <;> rcases List.mem_cons.mp h2 with h2 | h2
    · have := h1.trans h2.symm
      simpa using this
    · exfalso
      apply hN.1
      rw [← h1]
      exact List.mem_map.mpr ⟨(k, v'), h2, rfl⟩
    · exfalso
      apply hN.1
      rw [← h2]
      exact List.mem_map.mpr ⟨(k, v), h1, rfl⟩
    · exact ih hN.2 h1 h2

theorem desc_trans {files : Listing} {a b c : String}
    (h1 : Desc files a b) (h2 : Desc files b c) : Desc files a c := by
  induction h2 with
  | refl => exact h1
  | step _ hmem hp ht ih => exact Desc.step ih hmem hp ht

theorem desc_single {files : Listing} {a c : String} {nc : Node}
    (hm : (c, nc) ∈ files) (hp : nc.p = a) (ht : nc.t = 1) : Desc files a c :=
  Desc.step Desc.refl hm hp ht

theorem desc_toTransGen {files : Listing} {a b : String} (h : Desc files a b) :
    a = b ∨ Relation.TransGen (childRel files) a b := by
  induction h with
  | refl => exact Or.inl rfl
  | step _ hmem hp _ ih =>
    rcases ih with rfl | htg
    · exact Or.inr (Relation.TransGen.single ⟨_, hmem, hp⟩)
    · exact Or.inr (htg.tail ⟨_, hmem, hp⟩)

theorem desc_first_step {files : Listing} {a x : String} (h : Desc files a x) :
    a = x ∨ ∃ c nc, (c, nc) ∈ files ∧ nc.p = a ∧ nc.t = 1 ∧ Desc files c x := by
  induction h with
  | refl => exact Or.inl rfl
  | step _ hmem hp ht ih =>
    rcases ih with rfl | ⟨c, nc, hm, hcp, hct, hdesc⟩
    · exact Or.inr ⟨_, _, hmem, hp, ht, Desc.refl⟩
    · exact Or.inr ⟨c, nc, hm, hcp, hct, Desc.step hdesc hmem hp ht⟩

theorem desc_linear {files : Listing} (hN : (files.map Prod.fst).Nodup) {a x : String}
    (h1 : Desc files a x) : ∀ {b : String}, Desc files b x → Desc files a b ∨ Desc files b a := by
  induction h1 with
  | refl =>
    intro b h2
    exact Or.inr h2
  | step hd hmem hp ht ih =>
    intro b h2
    cases h2 with
    | refl => exact Or.inl (Desc.step hd hmem hp ht)
    | step hd2 hmem2 hp2 ht2 =>
      have hnd := keyUnique hN hmem2 hmem
      subst hnd
      rw [hp] at hp2
      exact ih (hp2 ▸ hd2)

theorem child_not_desc {files : Listing} (hA : Acyclic files) {a c : String} {nc : Node}
    (hm : (c, nc) ∈ files) (hp : nc.p = a) (h : Desc files c a) : False := by
  have hstep : Relation.TransGen (childRel files) a c := .single ⟨nc, hm, hp⟩
  rcases desc_toTransGen h with rfl | htg
  · exact hA c hstep
  · exact hA a (hstep.trans htg)

theorem sibling_desc_eq {files : Listing} (hA : Acyclic files)
    (hN : (files.map Prod.fst).Nodup) {parent c1 c2 : String} {n1 n2 : Node}
    (h1 : (c1, n1) ∈ files) (hp1 : n1.p = parent)
    (h2 : (c2, n2) ∈ files) (hp2 : n2.p = parent)
    {x : String} (hd1 : Desc files c1 x) (hd2 : Desc files c2 x) : c1 = c2 := by
  by_contra hne
  rcases desc_linear hN hd1 hd2 with h | h
  · cases h with
    | refl => exact hne rfl
    | step hd hmem hp _ =>
      have hnd := keyUnique hN hmem h2
      subst hnd
      rw [hp2] at hp
      subst hp
      exact child_not_desc hA h1 hp1 hd
  · cases h with
    | refl => exact hne rfl
    | step hd hmem hp _ =>
      have hnd := keyUnique hN hmem h1
      subst hnd
      rw [hp1] at hp
      subst hp
      exact child_not_desc hA h2 hp2 hd

theorem chain_transGen {files : Listing} :
    ∀ {l : List String} {a : String}, IsChainF files a l →
      ∀ x ∈ l, Relation.TransGen (childRel files) a x := by
  intro l
  induction l with
  | nil => intro a _ x hx; cases hx
  | cons b l ih =>
    intro a h x hx
    obtain ⟨⟨nd, hm, hp, _⟩, hrest⟩ := h
    rcases List.mem_cons.mp hx with rfl | hx'
    · exact .single ⟨nd, hm, hp⟩
    · exact (Relation.TransGen.single ⟨nd, hm, hp⟩).trans (ih hrest x hx')

theorem chain_mem_keys {files : Listing} :
    ∀ {l : List String} {a : String}, IsChainF files a l →
      ∀ x ∈ l, x ∈ files.map Prod.fst := by
  intro l
  induction l with
  | nil => intro a _ x hx; cases hx
  | cons b l ih =>
    intro a h x hx
    obtain ⟨⟨nd, hm, _, _⟩, hrest⟩ := h
    rcases List.mem_cons.mp hx with rfl | hx'
    · exact List.mem_map_of_mem Prod.fst hm
    · exact ih hrest x hx'

theorem chain_nodup {files : Listing} (hA : Acyclic files) :
    ∀ {l : List String} {a : String}, IsChainF files a l → a ∉ l ∧ l.Nodup := by
  intro l
  induction l with
  | nil => intro a _; exact ⟨by simp, List.nodup_nil⟩
  | cons b l ih =>
    intro a h
    have h0 := h
    obtain ⟨⟨nd, hm, hp, ht⟩, hrest⟩ := h
    obtain ⟨hb, hnodup⟩ := ih hrest
    constructor
    · intro hmem
      rcases List.mem_cons.mp hmem with rfl | hmem'
      · exact hA a (.single ⟨nd, hm, hp⟩)
      · exact hA a (chain_transGen h0 a (List.mem_cons_of_mem _ hmem'))
    · exact List.nodup_cons.mpr ⟨hb, hnodup⟩

theorem chain_length_le {files : Listing} (hA : Acyclic files) {a : String} {l : List String}
    (h : IsChainF files a l) : l.length ≤ files.length := by
  classical
  have hnd : l.Nodup := (chain_nodup hA h).2
  have hsub : ∀ x ∈ l, x ∈ files.map Prod.fst := chain_mem_keys h
  calc l.length = l.toFinset.card := (List.toFinset_card_of_nodup hnd).symm
    _ ≤ (files.map Prod.fst).toFinset.card := by
        apply Finset.card_le_card
        intro x hx
        rw [List.mem_toFinset] at hx ⊢
        exact hsub x hx
    _ ≤ (files.map Prod.fst).length := List.toFinset_card_le _
    _ = files.length := List.length_map _ _

/-! ## Scan-step rewrite lemmas and termination -/

theorem scanList_cons_skip {rec : String → Option (List FileRecord)} {parentId fid : String}
    {nd : Node} {rest : List (String × Node)} (h : ¬ nd.p = parentId) :
    scanList rec parentId ((fid, nd) :: rest) = scanList rec parentId rest := by
  simp [scanList, h]

theorem scanList_cons_other {rec : String → Option (List FileRecord)} {parentId fid : String}
    {nd : Node} {rest : List (String × Node)} (hp : nd.p = parentId)
    (h0 : ¬ nd.t = 0) (h1 : ¬ nd.t = 1) :
    scanList rec parentId ((fid, nd) :: rest) = scanList rec parentId rest := by
  simp [scanList, hp, h0, h1]

theorem scanList_cons_file {rec : String → Option (List FileRecord)} {parentId fid : String}
    {nd : Node} {rest : List (String × Node)} (hp : nd.p = parentId) (h0 : nd.t = 0) :
    scanList rec parentId ((fid, nd) :: rest)
      = match scanList rec parentId rest with
        | none => none
        | some l => some (⟨fid, nodeName nd, nd⟩ :: l) := by
  simp [scanList, hp, h0]

theorem scanList_cons_folder {rec : String → Option (List FileRecord)} {parentId fid : String}
    {nd : Node} {rest : List (String × Node)} (hp : nd.p = parentId) (h1 : nd.t = 1) :
    scanList rec parentId ((fid, nd) :: rest)
      = match rec fid with
        | none => none
        | some sub =>
          match scanList rec parentId rest with
          | none => none
          | some l => some (sub ++ l) := by
  have h0 : ¬ nd.t = 0 := by omega
  simp [scanList, hp, h0, h1]

theorem scanList_isSome {rec : String → Option (List FileRecord)} {parentId : String} :
    ∀ {scanl : List (String × Node)},
      (∀ e ∈ scanl, e.2.p = parentId → e.2.t = 1 → (rec e.1).isSome) →
      (scanList rec parentId scanl).isSome := by
  intro scanl
  induction scanl with
  | nil => intro _; simp [scanList]
  | cons e rest ih =>
    intro h
    obtain ⟨fid, nd⟩ := e
    have hrest : (scanList rec parentId rest).isSome :=
      ih (fun e he hp ht => h e (List.mem_cons_of_mem _ he) hp ht)
    obtain ⟨l, hl⟩ := Option.isSome_iff_exists.mp hrest
    by_cases hp : nd.p = parentId
    · by_cases h0 : nd.t = 0
      · rw [scanList_cons_file hp h0, hl]
        rfl
      · by_cases h1 : nd.t = 1
        · have hrec := h (fid, nd) (List.mem_cons_self _ _) hp h1
          obtain ⟨sub, hsub⟩ := Option.isSome_iff_exists.mp hrec
          rw [scanList_cons_folder hp h1, hsub, hl]
          rfl
        · rw [scanList_cons_other hp h0 h1]
          exact hrest
    · rw [scanList_cons_skip hp]
      exact hrest

theorem traverseAux_isSome {files : Listing} :
    ∀ (fuel : Nat) (parentId : String),
      (∀ l, IsChainF files parentId l → l.length < fuel) →
      (traverseAux files fuel parentId).isSome := by
  intro fuel
  induction fuel with
  | zero =>
    intro parentId h
    exact absurd (h [] trivial) (by omega)
  | succ fuel ih =>
    intro parentId h
    show (scanList (traverseAux files fuel) parentId files).isSome
    apply scanList_isSome
    intro e he hp ht
    apply ih
    intro l hl
    have hchain : (∃ nd, (e.1, nd) ∈ files ∧ nd.p = parentId ∧ nd.t = 1)
        ∧ IsChainF files e.1 l := ⟨⟨e.2, he, hp, ht⟩, hl⟩
    have := h (e.1 :: l) hchain
    simp only [List.length_cons] at this
    omega

theorem traverse_total {files : Listing} (hA : Acyclic files) (root : String) :
    (traverseAux files (files.length + 1) root).isSome :=
  traverseAux_isSome (files.length + 1) root (fun l hl => by
    have := chain_length_le hA hl
    omega)

theorem traverse_cyc_none : ∀ fuel, traverseAux cycListing fuel "A" = none := by
  intro fuel
  induction fuel with
  | zero => rfl
  | succ fuel ih =>
    show scanList (traverseAux cycListing fuel) "A"
      (("A", (⟨"A", 1, some "loop"⟩ : Node)) :: []) = none
    rw [@scanList_cons_folder (traverseAux cycListing fuel) "A" "A" ⟨"A", 1, some "loop"⟩ []
      rfl rfl, ih]

theorem acyclic_of_rank (files : Listing) (rank : String → Nat)
    (h : ∀ a b, childRel files a b → rank a < rank b) : Acyclic files := by
  intro id hcyc
  have mono : ∀ x y, Relation.TransGen (childRel files) x y → rank x < rank y := by
    intro x y hxy
    induction hxy with
    | single hs => exact h _ _ hs
    | tail _ hs ih => exact lt_trans ih (h _ _ hs)
  exact absurd (mono id id hcyc) (lt_irrefl _)

theorem acyclic_walkListing : Acyclic walkListing := by
  apply acyclic_of_rank _
    (fun s => if s = "RP" then 0 else if s = "R" then 1 else if s = "D1" then 2 else 3)
  intro a b hcb
  obtain ⟨nd, hm, hp⟩ := hcb
  simp only [walkListing, List.mem_cons, List.not_mem_nil, or_false, Prod.mk.injEq] at hm
  rcases hm with ⟨rfl, rfl⟩ | ⟨rfl, rfl⟩ | ⟨rfl, rfl⟩ | ⟨rfl, rfl⟩ <;> subst hp <;> decide

/-! ## Counting helpers -/

theorem sum_map_add {α : Type} (l : List α) (f g : α → Nat) :
    (l.map (fun a => f a + g a)).sum = (l.map f).sum + (l.map g).sum := by
  induction l with
  | nil => rfl
  | cons a l ih =>
    simp only [List.map_cons, List.sum_cons, ih]
    omega

theorem sum_map_ite_filter {α : Type} (l : List α) (p : α → Bool) (f : α → Nat) :
    (l.map (fun a => if p a = true then f a else 0)).sum = ((l.filter p).map f).sum := by
  induction l with
  | nil => rfl
  | cons a l ih =>
    by_cases h : p a = true <;> simp [List.filter_cons, h, ih]

theorem countP_eq_sum_map {α : Type} (l : List α) (p : α → Bool) :
    l.countP p = (l.map (fun a => if p a = true then 1 else 0)).sum := by
  induction l with
  | nil => rfl
  | cons a l ih =>
    by_cases h : p a = true
    · simp [List.countP_cons, h, ih]
      omega
    · simp [List.countP_cons, h, ih]

theorem countP_eq_one_of_unique {α : Type} {l : List α} {p : α → Bool} (hnd : l.Nodup)
    {a : α} (ha : a ∈ l) (hpa : p a = true) (huniq : ∀ b ∈ l, p b = true → b = a) :
    l.countP p = 1 := by
  induction l with
  | nil => cases ha
  | cons x rest ih =>
    rw [List.nodup_cons] at hnd
    rcases List.mem_cons.mp ha with rfl | ha'
    · rw [List.countP_cons, if_pos hpa]
      have hz : rest.countP p = 0 := by
        apply List.countP_eq_zero.mpr
        intro b hb hpb
        exact absurd ((huniq b (List.mem_cons_of_mem _ hb) hpb) ▸ hb) hnd.1
      omega
    · rw [List.countP_cons]
      have hx : ¬ p x = true :=
        fun hpx => hnd.1 ((huniq x (List.mem_cons_self _ _) hpx) ▸ ha')
      rw [if_neg hx]
      have := ih hnd.2 ha' (fun b hb hpb => huniq b (List.mem_cons_of_mem _ hb) hpb)
      omega

theorem mem_folderChildren {files : Listing} {parent : String} {c : String × Node} :
    c ∈ folderChildren files parent ↔ c ∈ files ∧ c.2.t = 1 ∧ c.2.p = parent := by
  simp [folderChildren, List.mem_filter, and_assoc]

/-! ## Scan-level counting -/

theorem scanList_rec_isSome {rec : String → Option (List FileRecord)} {parentId : String} :
    ∀ {scanl : List (String × Node)} {res : List FileRecord},
      scanList rec parentId scanl = some res →
      ∀ e ∈ scanl, e.2.p = parentId → e.2.t = 1 → (rec e.1).isSome := by
  intro scanl
  induction scanl with
  | nil => intro res _ e he; cases he
  | cons x rest ih =>
    intro res hres e he hp ht
    obtain ⟨fid, nd⟩ := x
    rcases List.mem_cons.mp he with rfl | he'
    · rw [scanList_cons_folder hp ht] at hres
      cases hrc : rec (fid, nd).1 with
      | none => rw [hrc] at hres; cases hres
      | some sub => simp
    · by_cases hp' : nd.p = parentId
      · by_cases h0 : nd.t = 0
        · rw [scanList_cons_file hp' h0] at hres
          cases hs : scanList rec parentId rest with
          | none => rw [hs] at hres; cases hres
          | some l => exact ih hs e he' hp ht
        · by_cases h1 : nd.t = 1
          · rw [scanList_cons_folder hp' h1] at hres
            cases hrc : rec fid with
            | none => rw [hrc] at hres; cases hres
            | some sub =>
              rw [hrc] at hres
              cases hs : scanList rec parentId rest with
              | none => rw [hs] at hres; cases hres
              | some l => exact ih hs e he' hp ht
          · rw [scanList_cons_other hp' h0 h1] at hres
            exact ih hres e he' hp ht
      · rw [scanList_cons_skip hp'] at hres
        exact ih hres e he' hp ht

theorem scanList_countP {rec : String → Option (List FileRecord)} {parentId : String}
    (q : FileRecord → Bool) :
    ∀ {scanl : List (String × Node)} {res : List FileRecord},
      scanList rec parentId scanl = some res →
      res.countP q = (scanl.map (fun e =>
        if e.2.p = parentId then
          if e.2.t = 0 then (if q (recOf e) then 1 else 0)
          else if e.2.t = 1 then ((rec e.1).getD []).countP q
          else 0
        else 0)).sum := by
  intro scanl
  induction scanl with
  | nil =>
    intro res hres
    have : res = [] := by
      have : some ([] : List FileRecord) = some res := hres
      exact (Option.some.inj this).symm
    subst this
    rfl
  | cons x rest ih =>
    intro res hres
    obtain ⟨fid, nd⟩ := x
    by_cases hp : nd.p = parentId
    · by_cases h0 : nd.t = 0
      · rw [scanList_cons_file hp h0] at hres
        cases hs : scanList rec parentId rest with
        | none => rw [hs] at hres; cases hres
        | some l =>
          rw [hs] at hres
          have hres' : (⟨fid, nodeName nd, nd⟩ : FileRecord) :: l = res := Option.some.inj hres
          subst hres'
          rw [List.countP_cons, ih hs]
          have halign : (⟨fid, nodeName nd, nd⟩ : FileRecord) = recOf (fid, nd) := rfl
          simp only [List.map_cons, List.sum_cons, hp, h0, halign, eq_self_iff_true, if_true]
          omega
      · by_cases h1 : nd.t = 1
        · rw [scanList_cons_folder hp h1] at hres
          cases hrc : rec fid with
          | none => rw [hrc] at hres; cases hres
          | some sub =>
            rw [hrc] at hres
            cases hs : scanList rec parentId rest with
            | none => rw [hs] at hres; cases hres
            | some l =>
              rw [hs] at hres
              have hres' : sub ++ l = res := Option.some.inj hres
              subst hres'
              rw [List.countP_append, ih hs]
              simp only [List.map_cons, List.sum_cons, hp, h1, eq_self_iff_true, if_true,
                hrc, Option.getD_some]
              norm_num
        · rw [scanList_cons_other hp h0 h1] at hres
          rw [ih hres]
          simp [hp, h0, h1]
    · rw [scanList_cons_skip hp] at hres
      rw [ih hres]
      simp [hp]

/-! ## The bucket decomposition: a collected file is counted once, either
as a direct child of the parent or under exactly one folder child -/

open Classical in
theorem bucket_pointwise {files : Listing} (hA : Acyclic files)
    (hN : (files.map Prod.fst).Nodup) (parent : String) (q : FileRecord → Bool)
    (e : String × Node) :
    (if decide (specPred files parent e) && q (recOf e) then 1 else 0)
      = (if decide (e.2.t = 0 ∧ e.2.p = parent) && q (recOf e) then 1 else 0)
        + (folderChildren files parent).countP
            (fun c => decide (specPred files c.1 e) && q (recOf e)) := by
  by_cases hq : q (recOf e) = true
  · simp only [hq, Bool.and_true]
    by_cases h0 : e.2.t = 0
    · by_cases hdp : e.2.p = parent
      · have hspec : specPred files parent e := ⟨h0, by rw [hdp]; exact Desc.refl⟩
        have hdir : e.2.t = 0 ∧ e.2.p = parent := ⟨h0, hdp⟩
        have hcnt : (folderChildren files parent).countP
            (fun c => decide (specPred files c.1 e)) = 0 := by
          apply List.countP_eq_zero.mpr
          intro c hc hcp
          have hsp : specPred files c.1 e := of_decide_eq_true hcp
          obtain ⟨hcf, hct, hcpp⟩ := mem_folderChildren.mp hc
          have hdesc : Desc files c.1 parent := hdp ▸ hsp.2
          exact child_not_desc hA (show (c.1, c.2) ∈ files from hcf) hcpp hdesc
        simp [hspec, hdir, hcnt]
      · by_cases hdesc : Desc files parent e.2.p
        · have hspec : specPred files parent e := ⟨h0, hdesc⟩
          rcases desc_first_step hdesc with heq | ⟨c, nc, hm, hcp, hct, hcd⟩
          · exact absurd heq.symm hdp
          · have hfnodup : (folderChildren files parent).Nodup :=
              (List.Nodup.of_map Prod.fst hN).filter _
            have hcmem : (c, nc) ∈ folderChildren files parent :=
              mem_folderChildren.mpr ⟨hm, hct, hcp⟩
            have hcnt : (folderChildren files parent).countP
                (fun c' => decide (specPred files c'.1 e)) = 1 := by
              apply countP_eq_one_of_unique hfnodup hcmem
                (decide_eq_true ⟨h0, hcd⟩)
              intro b hb hpb
              obtain ⟨hbf, hbt, hbp⟩ := mem_folderChildren.mp hb
              have hbd : Desc files b.1 e.2.p := (of_decide_eq_true hpb).2
              have hbc : b.1 = c :=
                sibling_desc_eq hA hN (show (b.1, b.2) ∈ files from hbf) hbp hm hcp hbd hcd
              have : b.2 = nc := keyUnique hN (hbc ▸ (show (b.1, b.2) ∈ files from hbf)) hm
              calc b = (b.1, b.2) := rfl
                _ = (c, nc) := by rw [hbc, this]
            have hnd : ¬ (e.2.t = 0 ∧ e.2.p = parent) := fun h => hdp h.2
            simp [hspec, hnd, hcnt]
        · have hns : ¬ specPred files parent e := fun hs => hdesc hs.2
          have hnd : ¬ (e.2.t = 0 ∧ e.2.p = parent) := fun h => hdp h.2
          have hcnt : (folderChildren files parent).countP
              (fun c => decide (specPred files c.1 e)) = 0 := by
            apply List.countP_eq_zero.mpr
            intro c hc hcp
            obtain ⟨hcf, hct, hcpp⟩ := mem_folderChildren.mp hc
            have hcd : Desc files c.1 e.2.p := (of_decide_eq_true hcp).2
            exact hdesc (desc_trans
              (desc_single (show (c.1, c.2) ∈ files from hcf) hcpp hct) hcd)
          simp [hns, hnd, hcnt]
    · have hns : ¬ specPred files parent e := fun hs => h0 hs.1
      have hnd : ¬ (e.2.t = 0 ∧ e.2.p = parent) := fun h => h0 h.1
      have hcnt : (folderChildren files parent).countP
          (fun c => decide (specPred files c.1 e)) = 0 := by
        apply List.countP_eq_zero.mpr
        intro c hc hcp
        exact h0 (of_decide_eq_true hcp).1
      simp [hns, hnd, hcnt]
  · have hq' : q (recOf e) = false := by
      revert hq
      cases q (recOf e) <;> simp
    simp only [hq', Bool.and_false, if_neg (by simp : ¬ (false = true))]
    rw [List.countP_eq_zero.mpr (by intro c _; simp)]

open Classical in
theorem bucket_countP {files : Listing} (hA : Acyclic files)
    (hN : (files.map Prod.fst).Nodup) (parent : String) (q : FileRecord → Bool) :
    ∀ scanl : List (String × Node),
      scanl.countP (fun e => decide (specPred files parent e) && q (recOf e))
        = scanl.countP (fun e => decide (e.2.t = 0 ∧ e.2.p = parent) && q (recOf e))
          + ((folderChildren files parent).map
              (fun c => scanl.countP
                (fun e => decide (specPred files c.1 e) && q (recOf e)))).sum := by
  intro scanl
  induction scanl with
  | nil =>
    simp only [List.countP_nil, Nat.zero_add]
    symm
    apply List.sum_eq_zero
    intro x hx
    obtain ⟨c, _, hc⟩ := List.mem_map.mp hx
    simp [← hc]
  | cons e rest ih =>
    rw [List.countP_cons, List.countP_cons, ih]
    have hmap : (folderChildren files parent).map
        (fun c => (e :: rest).countP
          (fun e' => decide (specPred files c.1 e') && q (recOf e')))
      = (folderChildren files parent).map
        (fun c => rest.countP (fun e' => decide (specPred files c.1 e') && q (recOf e'))
          + (if decide (specPred files c.1 e) && q (recOf e) then 1 else 0)) := by
      apply List.map_congr_left
      intro c _
      rw [List.countP_cons]
    rw [hmap, sum_map_add]
    have hsum_ind : ((folderChildren files parent).map
        (fun c => if decide (specPred files c.1 e) && q (recOf e) then 1 else 0)).sum
        = (folderChildren files parent).countP
            (fun c => decide (specPred files c.1 e) && q (recOf e)) :=
      (countP_eq_sum_map _ _).symm
    rw [hsum_ind]
    have hpw := bucket_pointwise hA hN parent q e
    omega

open Classical in
theorem traverse_countP {files : Listing} (hA : Acyclic files)
    (hN : (files.map Prod.fst).Nodup) :
    ∀ (fuel : Nat) (parent : String) (res : List FileRecord) (q : FileRecord → Bool),
      traverseAux files fuel parent = some res →
      res.countP q
        = files.countP (fun e => decide (specPred files parent e) && q (recOf e)) := by
  intro fuel
  induction fuel with
  | zero => intro parent res q h; cases h
  | succ fuel ih =>
    intro parent res q hres
    have hscan : scanList (traverseAux files fuel) parent files = some res := hres
    rw [scanList_countP q hscan]
    have hstep1 : files.map (fun e =>
        if e.2.p = parent then
          if e.2.t = 0 then (if q (recOf e) then 1 else 0)
          else if e.2.t = 1 then ((traverseAux files fuel e.1).getD []).countP q
          else 0
        else 0)
      = files.map (fun e =>
          (if decide (e.2.t = 0 ∧ e.2.p = parent) && q (recOf e) then 1 else 0)
          + (if (e.2.t == 1 && e.2.p == parent) = true
              then ((traverseAux files fuel e.1).getD []).countP q else 0)) := by
      apply List.map_congr_left
      intro e _
      by_cases hp : e.2.p = parent
      · by_cases h0 : e.2.t = 0
        · have h1 : ¬ e.2.t = 1 := by omega
          simp [hp, h0, h1]
        · by_cases h1 : e.2.t = 1
          · simp [hp, h0, h1]
          · simp [hp, h0, h1]
      · simp [hp]
    rw [hstep1, sum_map_add]
    have hstep2 : (files.map (fun e =>
        if decide (e.2.t = 0 ∧ e.2.p = parent) && q (recOf e) then 1 else 0)).sum
      = files.countP (fun e => decide (e.2.t = 0 ∧ e.2.p = parent) && q (recOf e)) :=
      (countP_eq_sum_map _ _).symm
    have hstep3 : (files.map (fun e =>
        if (e.2.t == 1 && e.2.p == parent) = true
          then ((traverseAux files fuel e.1).getD []).countP q else 0)).sum
      = ((folderChildren files parent).map
          (fun e => ((traverseAux files fuel e.1).getD []).countP q)).sum :=
      sum_map_ite_filter files _ _
    rw [hstep2, hstep3]
    have hstep4 : (folderChildren files parent).map
        (fun e => ((traverseAux files fuel e.1).getD []).countP q)
      = (folderChildren files parent).map
          (fun c => files.countP
            (fun e => decide (specPred files c.1 e) && q (recOf e))) := by
      apply List.map_congr_left
      intro c hc
      obtain ⟨hcf, hct, hcp⟩ := mem_folderChildren.mp hc
      have hsome := scanList_rec_isSome hscan c hcf hcp hct
      obtain ⟨sub, hsub⟩ := Option.isSome_iff_exists.mp hsome
      rw [hsub, Option.getD_some]
      exact ih c.1 sub q hsub
    rw [hstep4, ← bucket_countP hA hN parent q files]

/-! ## Soundness of collected records and permutation invariance -/

theorem scanList_sound {files : Listing} {root : String}
    {rec : String → Option (List FileRecord)} {parent : String}
    (hdesc : Desc files root parent)
    (hrec : ∀ fid nd sub, (fid, nd) ∈ files → nd.p = parent → nd.t = 1 →
      rec fid = some sub →
      ∀ r ∈ sub, ∃ nd', (r.id, nd') ∈ files ∧ nd'.t = 0 ∧ r.name = nodeName nd'
        ∧ r.data = nd' ∧ Desc files root nd'.p) :
    ∀ {scanl : List (String × Node)} {res : List FileRecord}, scanl ⊆ files →
      scanList rec parent scanl = some res →
      ∀ r ∈ res, ∃ nd', (r.id, nd') ∈ files ∧ nd'.t = 0 ∧ r.name = nodeName nd'
        ∧ r.data = nd' ∧ Desc files root nd'.p := by
  intro scanl
  induction scanl with
  | nil =>
    intro res _ hres r hr
    have : res = [] := (Option.some.inj hres).symm
    subst this
    cases hr
  | cons x rest ihs =>
    intro res hsub hres r hr
    obtain ⟨fid, nd⟩ := x
    have hxmem : (fid, nd) ∈ files := hsub (List.mem_cons_self _ _)
    have hrestsub : rest ⊆ files := fun y hy => hsub (List.mem_cons_of_mem _ hy)
    by_cases hp : nd.p = parent
    · by_cases h0 : nd.t = 0
      · rw [scanList_cons_file hp h0] at hres
        cases hs : scanList rec parent rest with
        | none => rw [hs] at hres; cases hres
        | some l =>
          rw [hs] at hres
          have hres' : (⟨fid, nodeName nd, nd⟩ : FileRecord) :: l = res := Option.some.inj hres
          subst hres'
          rcases List.mem_cons.mp hr with rfl | hr'
          · exact ⟨nd, hxmem, h0, rfl, rfl, by rw [hp]; exact hdesc⟩
          · exact ihs hrestsub hs r hr'
      · by_cases h1 : nd.t = 1
        · rw [scanList_cons_folder hp h1] at hres
          cases hrc : rec fid with
          | none => rw [hrc] at hres; cases hres
          | some sub =>
            rw [hrc] at hres
            cases hs : scanList rec parent rest with
            | none => rw [hs] at hres; cases hres
            | some l =>
              rw [hs] at hres
              have hres' : sub ++ l = res := Option.some.inj hres
              subst hres'
              rcases List.mem_append.mp hr with hr' | hr'
              · exact hrec fid nd sub hxmem hp h1 hrc r hr'
              · exact ihs hrestsub hs r hr'
        · rw [scanList_cons_other hp h0 h1] at hres
          exact ihs hrestsub hres r hr
    · rw [scanList_cons_skip hp] at hres
      exact ihs hrestsub hres r hr

theorem traverse_sound {files : Listing} {root : String} :
    ∀ (fuel : Nat) (parent : String) (res : List FileRecord),
      Desc files root parent →
      traverseAux files fuel parent = some res →
      ∀ r ∈ res, ∃ nd, (r.id, nd) ∈ files ∧ nd.t = 0 ∧ r.name = nodeName nd
        ∧ r.data = nd ∧ Desc files root nd.p := by
  intro fuel
  induction fuel with
  | zero => intro parent res _ h; cases h
  | succ fuel ih =>
    intro parent res hdesc hres
    exact scanList_sound hdesc
      (fun fid nd sub hm hp ht hsub r hr =>
        ih fid sub (Desc.step hdesc hm hp ht) hsub r hr)
      (fun x hx => hx) hres

theorem acyclic_perm {files files' : Listing} (h : files.Perm files') (hA : Acyclic files) :
    Acyclic files' := by
  intro id hcyc
  apply hA id
  apply Relation.TransGen.mono ?_ hcyc
  rintro a b ⟨nd, hm, hp⟩
  exact ⟨nd, h.mem_iff.mpr hm, hp⟩

theorem desc_perm {files files' : Listing} (h : files.Perm files') {root x : String}
    (hd : Desc files root x) : Desc files' root x := by
  induction hd with
  | refl => exact Desc.refl
  | step _ hm hp ht ih => exact Desc.step ih (h.mem_iff.mp hm) hp ht

/-! ## Claims C2 and C8: the recursive collection -/

open Classical in
/-- C2 (amended): for every flat node listing with unique ids and an
acyclic parent relation, and every root id, the recursive collection
succeeds and returns exactly the type=file nodes whose parent-id chain
reaches the root through type=folder nodes (folders are descended into
but never returned): every returned record is such a node, every Boolean
count of the result equals the corresponding count over the listing's
qualifying file entries, and the number (indeed the whole multiset) of
returned files is the same regardless of the iteration order of the
listing. -/
theorem claim_C2_amended (files : Listing) (root : String)
    (hA : Acyclic files) (hN : (files.map Prod.fst).Nodup) :
    ∃ res, get_all_files_recursive files root (files.length + 1) = some res
      ∧ (∀ r ∈ res, ∃ nd, (r.id, nd) ∈ files ∧ nd.t = 0 ∧ r.name = nodeName nd
          ∧ r.data = nd ∧ Desc files root nd.p)
      ∧ (∀ q : FileRecord → Bool,
          res.countP q
            = files.countP (fun e => decide (specPred files root e) && q (recOf e)))
      ∧ res.length = files.countP (fun e => decide (specPred files root e))
      ∧ (∀ (files' : Listing) (res' : List FileRecord), files.Perm files' →
          get_all_files_recursive files' root (files'.length + 1) = some res' →
          ∀ q : FileRecord → Bool, res'.countP q = res.countP q) := by
  obtain ⟨res, hres⟩ := Option.isSome_iff_exists.mp (traverse_total hA root)
  refine ⟨res, hres, ?_, ?_, ?_, ?_⟩
  · exact traverse_sound _ root res Desc.refl hres
  · intro q
    exact traverse_countP hA hN _ root res q hres
  · have h := traverse_countP hA hN _ root res (fun _ => true) hres
    rw [List.countP_true] at h
    rw [h]
    apply List.countP_congr
    intro e _
    simp
  · intro files' res' hperm hres' q
    have hA' : Acyclic files' := acyclic_perm hperm hA
    have hN' : (files'.map Prod.fst).Nodup := (hperm.map Prod.fst).nodup_iff.mp hN
    have h1 := traverse_countP hA' hN' _ root res' q hres'
    have h2 := traverse_countP hA hN _ root res q hres
    rw [h1, h2]
    rw [← hperm.countP_eq]
    apply List.countP_congr
    intro e _
    have hiff : specPred files' root e ↔ specPred files root e :=
      ⟨fun h => ⟨h.1, desc_perm hperm.symm h.2⟩, fun h => ⟨h.1, desc_perm hperm h.2⟩⟩
    simp [hiff]

/-- C2 as literally stated is false: in `fileChildListing` the file node
`B` has a parent-id chain (`B → A → R`) that reaches the root `R`, yet the
traversal returns only the file `A`, because the traversal does not
descend into the type=file node `A`. -/
theorem claim_C2_counterexample :
    get_all_files_recursive fileChildListing "R" 4
      = some [⟨"A", "a", ⟨"R", 0, some "a"⟩⟩]
  ∧ ("B", (⟨"A", 0, some "b"⟩ : Node)) ∈ fileChildListing
  ∧ (⟨"A", 0, some "b"⟩ : Node).t = 0
  ∧ PDesc fileChildListing "R" (⟨"A", 0, some "b"⟩ : Node).p
  ∧ (∀ r ∈ [(⟨"A", "a", ⟨"R", 0, some "a"⟩⟩ : FileRecord)], r.id ≠ "B") := by
  refine ⟨rfl, by decide, rfl, ?_, by decide⟩
  exact PDesc.step PDesc.refl (by decide : ("A", (⟨"R", 0, some "a"⟩ : Node)) ∈ fileChildListing) rfl

open Classical in
theorem claim_C2_witness :
    Acyclic walkListing ∧ (walkListing.map Prod.fst).Nodup
      ∧ ∃ res, get_all_files_recursive walkListing "R" (walkListing.length + 1) = some res
          ∧ res.length = walkListing.countP (fun e => decide (specPred walkListing "R" e)) := by
  have h := claim_C2_amended walkListing "R" acyclic_walkListing (by decide)
  obtain ⟨res, h1, _, _, h4, _⟩ := h
  exact ⟨acyclic_walkListing, by decide, res, h1, h4⟩

/-- C8: for every listing whose parent relation is acyclic, the recursive
traversal from any root terminates (a recursion budget of one more than
the listing size is never exhausted); and the traversal performs no cycle
detection, so this precondition is required: on the one-node cyclic
listing the traversal exhausts every budget. -/
theorem claim_C8 (files : Listing) (root : String) (hA : Acyclic files) :
    (get_all_files_recursive files root (files.length + 1)).isSome
  ∧ (∀ fuel, get_all_files_recursive cycListing "A" fuel = none) :=
  ⟨traverse_total hA root, fun fuel => traverse_cyc_none fuel⟩

theorem claim_C8_witness :
    Acyclic walkListing
  ∧ ((get_all_files_recursive walkListing "R" (walkListing.length + 1)).isSome
      ∧ (∀ fuel, get_all_files_recursive cycListing "A" fuel = none)) :=
  ⟨acyclic_walkListing, claim_C8 walkListing "R" acyclic_walkListing⟩

/-! ## Claim C7: the folder locator -/

theorem exactMatch_folder {path : String} {e : String × Node}
    (h : exactMatch path e = true) : e.2.t = 1 := by
  unfold exactMatch at h
  cases hn : e.2.name with
  | none => rw [hn] at h; cases h
  | some n =>
    rw [hn] at h
    have := (Bool.and_eq_true _ _).mp h
    exact Nat.beq_eq ▸ (by simpa using this.2)

theorem subMatch_folder {path : String} {e : String × Node}
    (h : subMatch path e = true) : e.2.t = 1 := by
  unfold subMatch at h
  cases hn : e.2.name with
  | none => rw [hn] at h; cases h
  | some n =>
    rw [hn] at h
    have := (Bool.and_eq_true _ _).mp h
    simpa using this.2

theorem find?_first {α : Type} (p : α → Bool) :
    ∀ (l1 : List α) (e : α) (l2 : List α), p e = true → (∀ x ∈ l1, ¬ p x = true) →
      (l1 ++ e :: l2).find? p = some e := by
  intro l1
  induction l1 with
  | nil =>
    intro e l2 hp _
    simpa using List.find?_cons_of_pos _ hp
  | cons a l ih =>
    intro e l2 hp hnone
    rw [List.cons_append, List.find?_cons_of_neg _ (hnone a (List.mem_cons_self _ _))]
    exact ih e l2 hp (fun x hx => hnone x (List.mem_cons_of_mem _ hx))

theorem findSubstr_first (path : String) (confirm : String × Node → Bool) :
    ∀ (l1 : Listing) (e : String × Node) (l2 : Listing),
      subMatch path e = true → confirm e = true →
      (∀ e' ∈ l1, subMatch path e' = true → confirm e' = false) →
      findSubstr path confirm (l1 ++ e :: l2) = some e := by
  intro l1
  induction l1 with
  | nil =>
    intro e l2 hs hc _
    simp [findSubstr, hs, hc]
  | cons a l ih =>
    intro e l2 hs hc hdecl
    rw [List.cons_append]
    by_cases ha : subMatch path a = true
    · have hfa : confirm a = false := hdecl a (List.mem_cons_self _ _) ha
      show findSubstr path confirm (a :: (l ++ e :: l2)) = some e
      rw [findSubstr, if_pos ha, if_neg (by simp [hfa])]
      exact ih e l2 hs hc (fun e' he' => hdecl e' (List.mem_cons_of_mem _ he'))
    · show findSubstr path confirm (a :: (l ++ e :: l2)) = some e
      rw [findSubstr, if_neg ha]
      exact ih e l2 hs hc (fun e' he' => hdecl e' (List.mem_cons_of_mem _ he'))

theorem findSubstr_none (path : String) (confirm : String × Node → Bool) :
    ∀ l : Listing, (∀ e ∈ l, subMatch path e = true → confirm e = false) →
      findSubstr path confirm l = none := by
  intro l
  induction l with
  | nil => intro _; rfl
  | cons a l ih =>
    intro h
    by_cases ha : subMatch path a = true
    · have hfa : confirm a = false := h a (List.mem_cons_self _ _) ha
      rw [findSubstr, if_pos ha, if_neg (by simp [hfa])]
      exact ih (fun e he hs => h e (List.mem_cons_of_mem _ he) hs)
    · rw [findSubstr, if_neg ha]
      exact ih (fun e he hs => h e (List.mem_cons_of_mem _ he) hs)

theorem findSubstr_sound (path : String) (confirm : String × Node → Bool) :
    ∀ (l : Listing) (e : String × Node), findSubstr path confirm l = some e →
      e ∈ l ∧ subMatch path e = true ∧ confirm e = true := by
  intro l
  induction l with
  | nil => intro e h; cases h
  | cons a l ih =>
    intro e h
    by_cases ha : subMatch path a = true
    · by_cases hc : confirm a = true
      · rw [findSubstr, if_pos ha, if_pos hc] at h
        have : a = e := Option.some.inj h
        subst this
        exact ⟨List.mem_cons_self _ _, ha, hc⟩
      · rw [findSubstr, if_pos ha, if_neg hc] at h
        obtain ⟨h1, h2, h3⟩ := ih e h
        exact ⟨List.mem_cons_of_mem _ h1, h2, h3⟩
    · rw [findSubstr, if_neg ha] at h
      obtain ⟨h1, h2, h3⟩ := ih e h
      exact ⟨List.mem_cons_of_mem _ h1, h2, h3⟩

/-- C7: the folder lookup returns the first exact-name folder match in
listing order without asking confirmation; only when no exact match
exists does it consider substring candidates in order, returning the
first confirmed one; it returns nothing when there is no exact match and
every substring candidate is declined or none exists; and any returned
node is a folder node of the listing. -/
theorem claim_C7 (files : Listing) (folder_path : String)
    (confirm : String × Node → Bool) :
    (∀ (l1 : Listing) (e : String × Node) (l2 : Listing),
        files = l1 ++ e :: l2 → exactMatch folder_path e = true →
        (∀ e' ∈ l1, ¬ exactMatch folder_path e' = true) →
        find_folder files folder_path confirm = some e)
  ∧ ((∀ e ∈ files, ¬ exactMatch folder_path e = true) →
      ∀ (l1 : Listing) (e : String × Node) (l2 : Listing),
        files = l1 ++ e :: l2 → subMatch folder_path e = true → confirm e = true →
        (∀ e' ∈ l1, subMatch folder_path e' = true → confirm e' = false) →
        find_folder files folder_path confirm = some e)
  ∧ ((∀ e ∈ files, ¬ exactMatch folder_path e = true) →
      (∀ e ∈ files, subMatch folder_path e = true → confirm e = false) →
      find_folder files folder_path confirm = none)
  ∧ (∀ e, find_folder files folder_path confirm = some e → e ∈ files ∧ e.2.t = 1) := by
  refine ⟨?_, ?_, ?_, ?_⟩
  · intro l1 e l2 hsplit hex hnone
    subst hsplit
    rw [find_folder, find?_first _ l1 e l2 hex hnone]
  · intro hexact l1 e l2 hsplit hs hc hdecl
    have hnone : files.find? (exactMatch folder_path) = none :=
      List.find?_eq_none.mpr (fun x hx => by simpa using hexact x hx)
    rw [find_folder, hnone]
    subst hsplit
    exact findSubstr_first folder_path confirm l1 e l2 hs hc hdecl
  · intro hexact hdecl
    have hnone : files.find? (exactMatch folder_path) = none :=
      List.find?_eq_none.mpr (fun x hx => by simpa using hexact x hx)
    rw [find_folder, hnone]
    exact findSubstr_none folder_path confirm files hdecl
  · intro e he
    rw [find_folder] at he
    cases hf : files.find? (exactMatch folder_path) with
    | some x =>
      rw [hf] at he
      have hx : x = e := Option.some.inj he
      subst hx
      exact ⟨List.mem_of_find?_eq_some hf, exactMatch_folder (List.find?_some hf)⟩
    | none =>
      rw [hf] at he
      obtain ⟨h1, h2, _⟩ := findSubstr_sound folder_path confirm files e he
      exact ⟨h1, subMatch_folder h2⟩
